import Mathlib

/-!
Shallow embedding of the CacheManager class of the repository's in-memory
cache module.  A JS Map is modelled as an insertion-ordered association
list, JS numbers holding sizes and times as Int and Nat, and the
floating-point eviction score as an exact rational extended with the two
IEEE specials (NaN and positive infinity) that the eviction scan can
actually produce when an entry has age zero.  The size estimator
(JSON.stringify based in the source) is an opaque parameter, since the
claims quantify over it.  String formatting of the MB statistics
(toFixed in the source) is kept as the exact rational value.
-/

/-- Mirror of the CacheEntry interface: payload, creation time (ms),
estimated size in bytes, hit counter. -/
structure CacheEntry (α : Type) where
  data : α
  timestamp : Nat
  size : Nat
  hits : Nat
  deriving DecidableEq

/-- The state of a CacheManager instance: the cache Map
(insertion-ordered association list), the running sizeUsed counter
(Int, since the source decrements it by plain subtraction), and the
readonly configuration fields maxSize and defaultTTL. -/
structure CacheState (α : Type) where
  cache : List (String × CacheEntry α)
  sizeUsed : Int
  maxSize : Nat
  defaultTTL : Nat
  deriving DecidableEq

variable {α : Type}

/-- JS Map.get on the association list. -/
def mapGet (k : String) : List (String × CacheEntry α) → Option (CacheEntry α)
  | [] => none
  | (k₁, e) :: rest => if k₁ = k then some e else mapGet k rest

/-- JS Map.delete: removes the (unique) binding of the key, keeping order. -/
def mapDelete (k : String) : List (String × CacheEntry α) → List (String × CacheEntry α)
  | [] => []
  | (k₁, e) :: rest => if k₁ = k then rest else (k₁, e) :: mapDelete k rest

/-- JS Map.set: replaces in place if the key is present (keeping its
insertion position), otherwise appends at the end. -/
def mapSet (k : String) (v : CacheEntry α) :
    List (String × CacheEntry α) → List (String × CacheEntry α)
  | [] => [(k, v)]
  | (k₁, e) :: rest => if k₁ = k then (k, v) :: rest else (k₁, e) :: mapSet k v rest

/-- JS regex dot with no flags: any character except a line terminator. -/
def jsDot (c : Char) : Bool :=
  c != '\n' && c != '\r' && c != Char.ofNat 0x2028 && c != Char.ofNat 0x2029

/-- Match of an anchored JS regex of shape pre.*suf (anchored both
ends): the subject decomposes as pre ++ mid ++ suf with every character
of mid accepted by the dot. -/
def matchMid (pre suf s : List Char) : Bool :=
  pre.isPrefixOf s && suf.isSuffixOf s
    && decide (pre.length + suf.length ≤ s.length)
    && ((s.drop pre.length).take (s.length - pre.length - suf.length)).all jsDot

/-- Test of the source regex for hot subreddit listings. -/
def reSubredditHot (s : String) : Bool :=
  matchMid ("subreddit:").data (":hot").data s.data

/-- Test of the source regex for new subreddit listings. -/
def reSubredditNew (s : String) : Bool :=
  matchMid ("subreddit:").data (":new").data s.data

/-- Test of the source regex for top subreddit listings. -/
def reSubredditTop (s : String) : Bool :=
  matchMid ("subreddit:").data (":top").data s.data

/-- Test of the source regex anchored only at the start, for posts. -/
def rePost (s : String) : Bool := ("post:").data.isPrefixOf s.data

/-- Test of the source regex anchored only at the start, for users. -/
def reUser (s : String) : Bool := ("user:").data.isPrefixOf s.data

/-- Test of the source regex anchored only at the start, for searches. -/
def reSearch (s : String) : Bool := ("search:").data.isPrefixOf s.data

/-- The ttlByPattern table built in the constructor, in its declared
order, with the TTLs in milliseconds. -/
def ttlByPattern : List ((String → Bool) × Nat) :=
  [(reSubredditHot, 5 * 60 * 1000),
   (reSubredditNew, 2 * 60 * 1000),
   (reSubredditTop, 30 * 60 * 1000),
   (rePost, 10 * 60 * 1000),
   (reUser, 15 * 60 * 1000),
   (reSearch, 10 * 60 * 1000)]

/-- The for-of loop inside getTTLForKey: first pattern that tests true
wins. -/
def scanTTL (key : String) : List ((String → Bool) × Nat) → Option Nat
  | [] => none
  | (p, ttl) :: rest => if p key then some ttl else scanTTL key rest

/-- CacheManager.getTTLForKey: scan the pattern table, fall back to the
configured default. -/
def getTTLForKey (defaultTTL : Nat) (key : String) : Nat :=
  (scanTTL key ttlByPattern).getD defaultTTL

/-- The values the eviction score expression can take in JS arithmetic. -/
inductive JSNum where
  | nan : JSNum
  | inf : JSNum
  | fin : ℚ → JSNum

/-- JS strict less-than on score values: false whenever NaN is
involved, infinity is below nothing, and finite values compare
exactly. -/
def jsLt : JSNum → JSNum → Bool
  | JSNum.nan, _ => false
  | _, JSNum.nan => false
  | JSNum.inf, _ => false
  | JSNum.fin _, JSNum.inf => true
  | JSNum.fin a, JSNum.fin b => decide (a < b)

/-- The eviction score entry.hits / (age / 1000) with
age = now - entry.timestamp in ms: 0/0 is NaN, hits/0 with positive
hits is infinity, otherwise the exact rational hits * 1000 / age. -/
def scoreOf (now : Nat) (e : CacheEntry α) : JSNum :=
  let age : Int := (now : Int) - (e.timestamp : Int)
  if age = 0 then (if e.hits = 0 then JSNum.nan else JSNum.inf)
  else JSNum.fin ((e.hits : ℚ) * 1000 / (age : ℚ))

/-- The value of a well-defined (nonzero-age) score as a rational. -/
def rscore (now : Nat) (e : CacheEntry α) : ℚ :=
  (e.hits : ℚ) * 1000 / (((now : Int) - (e.timestamp : Int) : Int) : ℚ)

/-- The scan of evictLRU: iterate the store in insertion order,
replacing the candidate exactly when the score is strictly below the
running minimum, which starts at infinity. -/
def selectGo (now : Nat) :
    Option String → JSNum → List (String × CacheEntry α) → Option String
  | best, _, [] => best
  | best, minScore, (k, e) :: rest =>
    if jsLt (scoreOf now e) minScore then selectGo now (some k) (scoreOf now e) rest
    else selectGo now best minScore rest

/-- The lruKey computed by evictLRU's scan. -/
def selectVictim (now : Nat) (l : List (String × CacheEntry α)) : Option String :=
  selectGo now none JSNum.inf l

/-- CacheManager.delete: returns false on a missing key, otherwise
subtracts the entry's size from sizeUsed and removes the binding. -/
def CacheManager.delete (k : String) (s : CacheState α) : Bool × CacheState α :=
  match mapGet k s.cache with
  | none => (false, s)
  | some e =>
    (true, { s with cache := mapDelete k s.cache,
                    sizeUsed := s.sizeUsed - (e.size : Int) })

/-- CacheManager.clear: empty the store, reset sizeUsed. -/
def CacheManager.clear (s : CacheState α) : CacheState α :=
  { s with cache := [], sizeUsed := 0 }

/-- CacheManager.evictLRU: delete the selected victim.  The source
guards the deletion with the JS truthiness of lruKey, so an empty
string key is never deleted. -/
def CacheManager.evictLRU (now : Nat) (s : CacheState α) : CacheState α :=
  match selectVictim now s.cache with
  | some k => if k = "" then s else (CacheManager.delete k s).2
  | none => s

/-- The condition of the while loop in set: the incoming size does not
fit and the store is non-empty. -/
def evictGuard (incoming : Nat) (s : CacheState α) : Bool :=
  decide ((s.maxSize : Int) < s.sizeUsed + (incoming : Int))
    && decide (0 < s.cache.length)

/-- The while loop of set, run on explicit fuel.  A result of none
means the fuel ran out with the guard still true; with fuel one more
than the store size this happens exactly when the source loop runs
forever, since each iteration either removes one entry or leaves the
state fixed (see evictLoopFuel_none_not_terminates below). -/
def evictLoopFuel (now incoming : Nat) : Nat → CacheState α → Option (CacheState α)
  | 0, s => if evictGuard incoming s then none else some s
  | fuel + 1, s =>
    if evictGuard incoming s then
      evictLoopFuel now incoming fuel (CacheManager.evictLRU now s)
    else some s

/-- Termination of the source's eviction loop from a given state: some
number of evictLRU steps falsifies the loop guard. -/
def evictTerminates (now incoming : Nat) (s : CacheState α) : Prop :=
  ∃ n : Nat, evictGuard incoming ((CacheManager.evictLRU now)^[n] s) = false

/-- CacheManager.set: estimate the size, run the eviction loop, delete
a pre-existing binding of the key, insert a fresh entry and account its
size.  The customTTL parameter is accepted and ignored, as in the
source.  The result is none when the eviction loop diverges. -/
def CacheManager.set (est : α → Nat) (now : Nat) (k : String) (v : α)
    (_customTTL : Option Nat) (s : CacheState α) : Option (CacheState α) :=
  match evictLoopFuel now (est v) (s.cache.length + 1) s with
  | none => none
  | some s₁ =>
    let s₂ := if (mapGet k s₁.cache).isSome then (CacheManager.delete k s₁).2 else s₁
    some { s₂ with cache := mapSet k ⟨v, now, est v, 0⟩ s₂.cache,
                   sizeUsed := s₂.sizeUsed + (est v : Int) }

/-- CacheManager.get: miss on absent key; on an expired entry (age
strictly above the TTL resolved from the key) delete it and miss;
otherwise bump the hit counter in place and return the payload. -/
def CacheManager.get (now : Nat) (k : String) (s : CacheState α) :
    Option α × CacheState α :=
  match mapGet k s.cache with
  | none => (none, s)
  | some e =>
    if (getTTLForKey s.defaultTTL k : Int) < (now : Int) - (e.timestamp : Int) then
      (none, (CacheManager.delete k s).2)
    else
      (some e.data,
       { s with cache := mapSet k { e with hits := e.hits + 1 } s.cache })

/-- The record produced by getStats.  The two MB fields keep the exact
rational value whose two-decimal rendering the source returns. -/
structure CacheStats where
  entries : Nat
  sizeUsed : Int
  maxSize : Nat
  sizeUsedMB : ℚ
  maxSizeMB : ℚ
  hitRate : ℚ
  oldestEntry : Option String
  mostUsed : List String

/-- Comparison of a timestamp against the running minimum of
getOldestEntry, whose sentinel (none) is infinity. -/
def ltSentinel (t : Nat) : Option Nat → Bool
  | none => true
  | some m => decide (t < m)

/-- The scan of getOldestEntry: strict improvement moves the candidate,
so the earliest-inserted key among equal timestamps is kept. -/
def getOldestGo :
    Option String → Option Nat → List (String × CacheEntry α) → Option String
  | best, _, [] => best
  | best, oldest, (k, e) :: rest =>
    if ltSentinel e.timestamp oldest then getOldestGo (some k) (some e.timestamp) rest
    else getOldestGo best oldest rest

/-- CacheManager.getOldestEntry. -/
def CacheManager.getOldestEntry (s : CacheState α) : Option String :=
  getOldestGo none none s.cache

/-- CacheManager.getMostUsedKeys: stable sort by descending hit count,
take the first count keys. -/
def CacheManager.getMostUsedKeys (count : Nat) (s : CacheState α) : List String :=
  ((s.cache.mergeSort (fun a b => decide (b.2.hits ≤ a.2.hits))).take count).map
    Prod.fst

/-- The reduce computing totalHits in getStats. -/
def totalHits (l : List (String × CacheEntry α)) : Nat :=
  l.foldl (fun sum p => sum + p.2.hits) 0

/-- CacheManager.getStats: aggregates computed from the live store; the
method performs no write, so the state component is returned unchanged. -/
def CacheManager.getStats (s : CacheState α) : CacheStats × CacheState α :=
  (⟨s.cache.length, s.sizeUsed, s.maxSize,
    (s.sizeUsed : ℚ) / 1024 / 1024,
    ((s.maxSize : Nat) : ℚ) / 1024 / 1024,
    (if 0 < s.cache.length then (totalHits s.cache : ℚ) / (s.cache.length : ℚ) else 0),
    CacheManager.getOldestEntry s,
    CacheManager.getMostUsedKeys 5 s⟩, s)

/-- An argument to the variadic static createKey: string, number,
boolean, undefined, or null (the runtime filter checks null although
the declared type does not admit it). -/
inductive KeyPart where
  | str : String → KeyPart
  | num : Int → KeyPart
  | bool : Bool → KeyPart
  | undef : KeyPart
  | jsNull : KeyPart

/-- The filter predicate p !== undefined && p !== null. -/
def keepPart : KeyPart → Bool
  | KeyPart.undef => false
  | KeyPart.jsNull => false
  | _ => true

/-- JS String() conversion applied by Array.join to each element. -/
def partToString : KeyPart → String
  | KeyPart.str s => s
  | KeyPart.num n => toString n
  | KeyPart.bool true => ("true")
  | KeyPart.bool false => ("false")
  | KeyPart.undef => ("undefined")
  | KeyPart.jsNull => ("null")

/-- JS String.prototype.toLowerCase, as the character-wise lowercase
map (the keys involved are ASCII). -/
def jsToLower (s : String) : String := ⟨s.data.map Char.toLower⟩

/-- CacheManager.createKey: filter out undefined and null, join with a
colon, lowercase. -/
def CacheManager.createKey (parts : List KeyPart) : String :=
  jsToLower (String.intercalate (":") ((parts.filter keepPart).map partToString))

/-- States reachable from a fresh cache by the public mutating
operations set, get, delete, clear.  A set whose eviction loop diverges
never completes and so contributes no state. -/
inductive Reachable (est : α → Nat) : CacheState α → Prop where
  | init (maxSize defaultTTL : Nat) : Reachable est ⟨[], 0, maxSize, defaultTTL⟩
  | opSet {s s' : CacheState α} (now : Nat) (k : String) (v : α) (t : Option Nat) :
      Reachable est s → CacheManager.set est now k v t s = some s' → Reachable est s'
  | opGet {s : CacheState α} (now : Nat) (k : String) :
      Reachable est s → Reachable est (CacheManager.get now k s).2
  | opDelete {s : CacheState α} (k : String) :
      Reachable est s → Reachable est (CacheManager.delete k s).2
  | opClear {s : CacheState α} :
      Reachable est s → Reachable est (CacheManager.clear s)

/-- The sum of the sizes of the resident entries. -/
def entrySum (l : List (String × CacheEntry α)) : Int :=
  (l.map (fun p => ((p.2.size : Nat) : Int))).sum

/-- The keys of the store in insertion order. -/
def keysOf (l : List (String × CacheEntry α)) : List String := l.map Prod.fst

/-- The accounting part of the invariant of reachable states: keys are
unique and sizeUsed is exactly the sum of resident entry sizes. -/
abbrev NodupSum (s : CacheState α) : Prop :=
  (keysOf s.cache).Nodup ∧ s.sizeUsed = entrySum s.cache

/-- The inductive invariant of reachable states: the accounting part,
and the byte budget respected except in the single-oversized-entry
state. -/
abbrev CacheInv (s : CacheState α) : Prop :=
  NodupSum s ∧
  (s.sizeUsed ≤ (s.maxSize : Int) ∨
    ∃ k e, s.cache = [(k, e)] ∧ (s.maxSize : Int) < ((e.size : Nat) : Int))

/-- Concrete state for checking C1: a single 60-byte entry inserted at
time 100 into a 100-byte cache. -/
def c1State : CacheState Nat := ⟨[(("a" : String), ⟨0, 100, 60, 0⟩)], 60, 100, 300000⟩

/-- Concrete overshoot state for C2: a single 200-byte entry admitted
at time 50 into an empty 100-byte cache. -/
def c2State : CacheState Nat := ⟨[(("a" : String), ⟨0, 50, 200, 0⟩)], 200, 100, 300000⟩

/-- Concrete state on which the eviction loop of set stalls: a single
zero-hit entry whose timestamp equals the current time, so its score
is 0/0 (NaN) and the scan never selects it. -/
def c3State : CacheState Nat := ⟨[(("a" : String), ⟨0, 100, 60, 0⟩)], 60, 100, 300000⟩

/-- Concrete store for the eviction scenario of C4 at time 200000:
entry a (60 bytes, 10 hits, age 1 s) and entry b (60 bytes, 0 hits,
age 100 s), with maxSize 100 bytes. -/
def c4State : CacheState Nat :=
  ⟨[(("a" : String), ⟨0, 199000, 60, 10⟩), (("b" : String), ⟨1, 100000, 60, 0⟩)],
    120, 100, 300000⟩

/-- Concrete state produced by the set of the C6 round-trip witness. -/
def c6State : CacheState Nat := ⟨[(("k" : String), ⟨7, 100, 10, 0⟩)], 10, 1000, 500⟩

/-- Concrete state with an expired entry for C7: defaultTTL 300 ms,
entry created at time 0, read at time 1000. -/
def c7State : CacheState Nat := ⟨[(("k" : String), ⟨0, 0, 10, 0⟩)], 10, 100, 300⟩

/-- Concrete state with an expired entry for C10's contrast between
get (which purges) and getStats (which does not). -/
def c10State : CacheState Nat := ⟨[(("k" : String), ⟨0, 0, 10, 0⟩)], 10, 100, 300⟩

theorem entrySum_nil : entrySum ([] : List (String × CacheEntry α)) = 0 := rfl

theorem entrySum_cons (p : String × CacheEntry α) (l : List (String × CacheEntry α)) :
    entrySum (p :: l) = ((p.2.size : Nat) : Int) + entrySum l := by
  simp [entrySum]

theorem entrySum_append (l₁ l₂ : List (String × CacheEntry α)) :
    entrySum (l₁ ++ l₂) = entrySum l₁ + entrySum l₂ := by
  simp [entrySum]

theorem entrySum_nonneg (l : List (String × CacheEntry α)) : 0 ≤ entrySum l := by
  induction l with
  | nil => simp [entrySum]
  | cons p rest ih =>
    rw [entrySum_cons]
    have := Int.natCast_nonneg p.2.size
    omega

theorem keysOf_nil : keysOf ([] : List (String × CacheEntry α)) = [] := rfl

theorem keysOf_cons (p : String × CacheEntry α) (l : List (String × CacheEntry α)) :
    keysOf (p :: l) = p.1 :: keysOf l := rfl

theorem mapGet_eq_none_iff (k : String) (l : List (String × CacheEntry α)) :
    mapGet k l = none ↔ k ∉ keysOf l := by
  induction l with
  | nil => simp [mapGet, keysOf]
  | cons p rest ih =>
    obtain ⟨k₁, e⟩ := p
    by_cases h : k₁ = k
    · subst h; simp [mapGet, keysOf_cons]
    · rw [keysOf_cons]
      simp only [mapGet, if_neg h, ih, List.mem_cons]
      constructor
      · intro hn hc
        rcases hc with hc | hc
        · exact h hc.symm
        · exact hn hc
      · intro hn hc
        exact hn (Or.inr hc)

theorem mapGet_mem {k : String} {l : List (String × CacheEntry α)} {e : CacheEntry α}
    (h : mapGet k l = some e) : (k, e) ∈ l := by
  induction l with
  | nil => simp [mapGet] at h
  | cons p rest ih =>
    obtain ⟨k₁, e₁⟩ := p
    by_cases hk : k₁ = k
    · subst hk; simp [mapGet] at h; simp [h]
    · simp [mapGet, hk] at h
      exact List.mem_cons_of_mem _ (ih h)

theorem mem_keysOf_of_get {k : String} {l : List (String × CacheEntry α)}
    {e : CacheEntry α} (h : mapGet k l = some e) : k ∈ keysOf l := by
  have := mapGet_mem h
  exact List.mem_map_of_mem Prod.fst this

theorem mapGet_isSome_of_mem {k : String} {l : List (String × CacheEntry α)}
    (h : k ∈ keysOf l) : ∃ e, mapGet k l = some e := by
  cases hg : mapGet k l with
  | none => exact absurd h ((mapGet_eq_none_iff k l).mp hg)
  | some e => exact ⟨e, rfl⟩

theorem mapDelete_sublist (k : String) (l : List (String × CacheEntry α)) :
    (mapDelete k l).Sublist l := by
  induction l with
  | nil => simp [mapDelete]
  | cons p rest ih =>
    obtain ⟨k₁, e₁⟩ := p
    by_cases h : k₁ = k
    · simp [mapDelete, h]
    · simpa [mapDelete, h] using ih.cons₂ (k₁, e₁)

theorem keysOf_mapDelete (k : String) (l : List (String × CacheEntry α)) :
    keysOf (mapDelete k l) = (keysOf l).erase k := by
  induction l with
  | nil => simp [mapDelete, keysOf]
  | cons p rest ih =>
    obtain ⟨k₁, e₁⟩ := p
    by_cases h : k₁ = k
    · subst h; simp [mapDelete, keysOf_cons, List.erase_cons_head]
    · rw [keysOf_cons, List.erase_cons_tail]
      · simp [mapDelete, h, keysOf_cons, ih]
      · simp
        intro hc
        exact absurd hc h

theorem nodup_keysOf_mapDelete {k : String} {l : List (String × CacheEntry α)}
    (h : (keysOf l).Nodup) : (keysOf (mapDelete k l)).Nodup := by
  rw [keysOf_mapDelete]
  exact h.erase k

theorem not_mem_keysOf_mapDelete {k : String} {l : List (String × CacheEntry α)}
    (h : (keysOf l).Nodup) : k ∉ keysOf (mapDelete k l) := by
  rw [keysOf_mapDelete]
  exact h.not_mem_erase

theorem entrySum_mapDelete {k : String} {l : List (String × CacheEntry α)}
    {e : CacheEntry α} (h : mapGet k l = some e) :
    entrySum (mapDelete k l) = entrySum l - ((e.size : Nat) : Int) := by
  induction l with
  | nil => simp [mapGet] at h
  | cons p rest ih =>
    obtain ⟨k₁, e₁⟩ := p
    by_cases hk : k₁ = k
    · subst hk
      simp [mapGet] at h
      subst h
      simp [mapDelete, entrySum_cons]
    · simp [mapGet, hk] at h
      simp [mapDelete, hk, entrySum_cons, ih h]
      omega

theorem length_mapDelete {k : String} {l : List (String × CacheEntry α)}
    {e : CacheEntry α} (h : mapGet k l = some e) :
    (mapDelete k l).length + 1 = l.length := by
  induction l with
  | nil => simp [mapGet] at h
  | cons p rest ih =>
    obtain ⟨k₁, e₁⟩ := p
    by_cases hk : k₁ = k
    · simp [mapDelete, hk]
    · simp [mapGet, hk] at h
      simp [mapDelete, hk]
      exact ih h

theorem mapSet_of_not_mem {k : String} {l : List (String × CacheEntry α)}
    (v : CacheEntry α) (h : k ∉ keysOf l) : mapSet k v l = l ++ [(k, v)] := by
  induction l with
  | nil => simp [mapSet]
  | cons p rest ih =>
    obtain ⟨k₁, e₁⟩ := p
    simp [keysOf] at h
    push_neg at h
    simp [mapSet, Ne.symm h.1, ih (by simpa [keysOf] using h.2)]

theorem keysOf_mapSet_of_mem {k : String} {l : List (String × CacheEntry α)}
    (v : CacheEntry α) (h : k ∈ keysOf l) : keysOf (mapSet k v l) = keysOf l := by
  induction l with
  | nil => simp [keysOf] at h
  | cons p rest ih =>
    obtain ⟨k₁, e₁⟩ := p
    by_cases hk : k₁ = k
    · subst hk; simp [mapSet, keysOf_cons]
    · rw [keysOf_cons] at h
      simp only [List.mem_cons] at h
      rcases h with h | h
      · exact absurd h.symm hk
      · simp [mapSet, hk, keysOf_cons, ih h]

theorem entrySum_mapSet {k : String} {l : List (String × CacheEntry α)}
    {e : CacheEntry α} (v : CacheEntry α) (h : mapGet k l = some e) :
    entrySum (mapSet k v l) =
      entrySum l - ((e.size : Nat) : Int) + ((v.size : Nat) : Int) := by
  induction l with
  | nil => simp [mapGet] at h
  | cons p rest ih =>
    obtain ⟨k₁, e₁⟩ := p
    by_cases hk : k₁ = k
    · subst hk
      simp [mapGet] at h
      subst h
      simp [mapSet, entrySum_cons]
      omega
    · simp [mapGet, hk] at h
      simp [mapSet, hk, entrySum_cons, ih h]
      omega

theorem mapGet_mapSet_self (k : String) (v : CacheEntry α)
    (l : List (String × CacheEntry α)) : mapGet k (mapSet k v l) = some v := by
  induction l with
  | nil => simp [mapSet, mapGet]
  | cons p rest ih =>
    obtain ⟨k₁, e₁⟩ := p
    by_cases hk : k₁ = k
    · simp [mapSet, hk, mapGet]
    · simp [mapSet, hk, mapGet, ih]

theorem keysOf_append (l₁ l₂ : List (String × CacheEntry α)) :
    keysOf (l₁ ++ l₂) = keysOf l₁ ++ keysOf l₂ := by
  simp [keysOf]

theorem delete_maxSize (k : String) (s : CacheState α) :
    ((CacheManager.delete k s).2).maxSize = s.maxSize := by
  unfold CacheManager.delete
  cases mapGet k s.cache <;> simp

theorem delete_defaultTTL (k : String) (s : CacheState α) :
    ((CacheManager.delete k s).2).defaultTTL = s.defaultTTL := by
  unfold CacheManager.delete
  cases mapGet k s.cache <;> simp

theorem evictLRU_maxSize (now : Nat) (s : CacheState α) :
    (CacheManager.evictLRU now s).maxSize = s.maxSize := by
  unfold CacheManager.evictLRU
  cases selectVictim now s.cache with
  | none => rfl
  | some k =>
    by_cases hk : k = "" <;> simp [hk, delete_maxSize]

theorem evictLRU_defaultTTL (now : Nat) (s : CacheState α) :
    (CacheManager.evictLRU now s).defaultTTL = s.defaultTTL := by
  unfold CacheManager.evictLRU
  cases selectVictim now s.cache with
  | none => rfl
  | some k =>
    by_cases hk : k = "" <;> simp [hk, delete_defaultTTL]

theorem nodupSum_delete (k : String) {s : CacheState α} (h : NodupSum s) :
    NodupSum ((CacheManager.delete k s).2) := by
  obtain ⟨hnd, hsum⟩ := h
  cases hg : mapGet k s.cache with
  | none => exact ⟨by simpa [CacheManager.delete, hg] using hnd,
      by simpa [CacheManager.delete, hg] using hsum⟩
  | some e =>
    constructor
    · simpa [CacheManager.delete, hg] using nodup_keysOf_mapDelete hnd
    · simp [CacheManager.delete, hg, entrySum_mapDelete hg, hsum]

theorem nodupSum_evictLRU (now : Nat) {s : CacheState α} (h : NodupSum s) :
    NodupSum (CacheManager.evictLRU now s) := by
  unfold CacheManager.evictLRU
  cases selectVictim now s.cache with
  | none => exact h
  | some k =>
    by_cases hk : k = ""
    · simpa [hk] using h
    · simpa [hk] using nodupSum_delete k h

theorem evictLoopFuel_spec (now incoming : Nat) :
    ∀ (fuel : Nat) (s s₁ : CacheState α), NodupSum s →
      evictLoopFuel now incoming fuel s = some s₁ →
      NodupSum s₁ ∧ evictGuard incoming s₁ = false ∧
        s₁.maxSize = s.maxSize ∧ s₁.defaultTTL = s.defaultTTL := by
  intro fuel
  induction fuel with
  | zero =>
    intro s s₁ hns h
    cases hg : evictGuard incoming s with
    | true => simp [evictLoopFuel, hg] at h
    | false =>
      simp [evictLoopFuel, hg] at h
      subst h
      exact ⟨hns, hg, rfl, rfl⟩
  | succ fuel ih =>
    intro s s₁ hns h
    cases hg : evictGuard incoming s with
    | false =>
      simp [evictLoopFuel, hg] at h
      subst h
      exact ⟨hns, hg, rfl, rfl⟩
    | true =>
      simp only [evictLoopFuel, hg, if_pos] at h
      obtain ⟨h1, h2, h3, h4⟩ := ih (CacheManager.evictLRU now s) s₁
        (nodupSum_evictLRU now hns) h
      exact ⟨h1, h2, h3.trans (evictLRU_maxSize now s),
        h4.trans (evictLRU_defaultTTL now s)⟩

theorem cacheInv_delete (k : String) {s : CacheState α} (h : CacheInv s) :
    CacheInv ((CacheManager.delete k s).2) := by
  obtain ⟨⟨hnd, hsum⟩, hbound⟩ := h
  refine ⟨nodupSum_delete k ⟨hnd, hsum⟩, ?_⟩
  cases hg : mapGet k s.cache with
  | none =>
    simp only [CacheManager.delete, hg]
    exact hbound
  | some e =>
    left
    simp only [CacheManager.delete, hg]
    rcases hbound with hb | ⟨k₀, e₀, hc, hsz⟩
    · have hpos := Int.natCast_nonneg e.size
      omega
    · have hge : e = e₀ := by
        rw [hc] at hg
        by_cases hk : k₀ = k
        · subst hk; simp [mapGet] at hg; exact hg.symm
        · simp [mapGet, hk] at hg
      have hsum' : s.sizeUsed = ((e₀.size : Nat) : Int) := by
        rw [hc] at hsum
        simpa [entrySum_cons, entrySum_nil] using hsum
      rw [hge, hsum']
      have := Int.natCast_nonneg s.maxSize
      omega

theorem cacheInv_insert {s₂ : CacheState α} (k : String) (E : CacheEntry α)
    (hns : NodupSum s₂) (hk : k ∉ keysOf s₂.cache)
    (hbound : s₂.sizeUsed + ((E.size : Nat) : Int) ≤ (s₂.maxSize : Int) ∨
      s₂.cache = []) :
    CacheInv { s₂ with cache := mapSet k E s₂.cache,
                       sizeUsed := s₂.sizeUsed + ((E.size : Nat) : Int) } := by
  obtain ⟨hnd, hsum⟩ := hns
  rw [mapSet_of_not_mem E hk]
  constructor
  · constructor
    · rw [keysOf_append]
      have h1 : keysOf ([(k, E)] : List (String × CacheEntry α)) = [k] := rfl
      rw [h1, List.nodup_append]
      refine ⟨hnd, List.nodup_singleton k, ?_⟩
      intro a ha hak
      simp only [List.mem_singleton] at hak
      subst hak
      exact hk ha
    · simp [entrySum_append, entrySum_cons, entrySum_nil, hsum]
  · rcases hbound with hb | hb
    · exact Or.inl hb
    · have hgoal : s₂.sizeUsed + ((E.size : Nat) : Int) ≤ ((s₂.maxSize : Nat) : Int) ∨
          ∃ k₁ e₁, s₂.cache ++ [(k, E)] = [(k₁, e₁)] ∧
            ((s₂.maxSize : Nat) : Int) < ((e₁.size : Nat) : Int) := by
        rw [hsum, hb, entrySum_nil]
        rcases le_or_lt (((E.size : Nat) : Int)) ((s₂.maxSize : Nat) : Int) with hle | hlt
        · left; omega
        · right
          exact ⟨k, E, rfl, hlt⟩
      exact hgoal

theorem reachable_cacheInv {est : α → Nat} {s : CacheState α}
    (h : Reachable est s) : CacheInv s := by
  induction h with
  | init mx d =>
    refine ⟨⟨by simp [keysOf], by simp [entrySum]⟩, Or.inl ?_⟩
    exact Int.natCast_nonneg mx
  | opClear _ _ =>
    refine ⟨⟨by simp [CacheManager.clear, keysOf],
      by simp [CacheManager.clear, entrySum]⟩, Or.inl ?_⟩
    simp [CacheManager.clear]
  | opDelete k _ ih => exact cacheInv_delete k ih
  | @opGet s now k _ ih =>
    cases hg : mapGet k s.cache with
    | none =>
      simp only [CacheManager.get, hg]
      exact ih
    | some e =>
      by_cases hexp :
          (getTTLForKey s.defaultTTL k : Int) < (now : Int) - (e.timestamp : Int)
      · simp only [CacheManager.get, hg, if_pos hexp]
        exact cacheInv_delete k ih
      · simp only [CacheManager.get, hg, if_neg hexp]
        obtain ⟨⟨hnd, hsum⟩, hbound⟩ := ih
        constructor
        · constructor
          · simpa [keysOf_mapSet_of_mem _ (mem_keysOf_of_get hg)] using hnd
          · have := entrySum_mapSet { e with hits := e.hits + 1 } hg
            simp only [this, hsum]
            omega
        · rcases hbound with hb | ⟨k₀, e₀, hc, hsz⟩
          · exact Or.inl hb
          · right
            have hke : k₀ = k ∧ e = e₀ := by
              rw [hc] at hg
              by_cases hkk : k₀ = k
              · subst hkk; simp [mapGet] at hg; exact ⟨rfl, hg.symm⟩
              · simp [mapGet, hkk] at hg
            refine ⟨k, { e with hits := e.hits + 1 }, ?_, ?_⟩
            · rw [hc, hke.1]
              simp [mapSet]
            · simpa [hke.2] using hsz
  | @opSet s s' now k v t _ hset ih =>
    cases hev : evictLoopFuel now (est v) (s.cache.length + 1) s with
    | none => simp [CacheManager.set, hev] at hset
    | some s₁ =>
      obtain ⟨hns₁, hgf, hmx, hdt⟩ :=
        evictLoopFuel_spec now (est v) (s.cache.length + 1) s s₁ ih.1 hev
      have hcases : s₁.sizeUsed + ((est v : Nat) : Int) ≤ ((s₁.maxSize : Nat) : Int) ∨
          s₁.cache = [] := by
        simp only [evictGuard, Bool.and_eq_false_iff, decide_eq_false_iff_not,
          not_lt] at hgf
        rcases hgf with hb | hb
        · exact Or.inl hb
        · right
          have : s₁.cache.length = 0 := by omega
          exact List.length_eq_zero.mp this
      by_cases hks : (mapGet k s₁.cache).isSome
      · obtain ⟨e, hge⟩ := Option.isSome_iff_exists.mp hks
        simp only [CacheManager.set, hev, hks, if_pos, Option.some.injEq] at hset
        subst hset
        have hfit : s₁.sizeUsed + ((est v : Nat) : Int) ≤ ((s₁.maxSize : Nat) : Int) := by
          rcases hcases with hb | hb
          · exact hb
          · rw [hb] at hge
            simp [mapGet] at hge
        have hd := nodupSum_delete k hns₁
        simp only [CacheManager.delete, hge] at hd ⊢
        apply cacheInv_insert k _ hd
        · exact not_mem_keysOf_mapDelete hns₁.1
        · left
          have hpos := Int.natCast_nonneg e.size
          simp only at *
          omega
      · have hgn : mapGet k s₁.cache = none := Option.not_isSome_iff_eq_none.mp hks
        simp only [CacheManager.set, hev, hks, if_neg, Option.some.injEq] at hset
        subst hset
        apply cacheInv_insert k _ hns₁
        · exact (mapGet_eq_none_iff k s₁.cache).mp hgn
        · rcases hcases with hb | hb
          · exact Or.inl hb
          · exact Or.inr hb

theorem scoreOf_eq_fin {now : Nat} {e : CacheEntry α} (h : e.timestamp < now) :
    scoreOf now e = JSNum.fin (rscore now e) := by
  have hne : ((now : Int) - (e.timestamp : Int)) ≠ 0 := by
    have hl : (e.timestamp : Int) < (now : Int) := by exact_mod_cast h
    omega
  simp only [scoreOf, rscore]
  rw [if_neg hne]

theorem selectGo_some_isSome (now : Nat) :
    ∀ (l : List (String × CacheEntry α)) (k : String) (m : JSNum),
      (selectGo now (some k) m l).isSome := by
  intro l
  induction l with
  | nil => intro k m; simp [selectGo]
  | cons p rest ih =>
    intro k m
    obtain ⟨k₁, e₁⟩ := p
    simp only [selectGo]
    by_cases hlt : jsLt (scoreOf now e₁) m = true
    · rw [if_pos hlt]; exact ih k₁ _
    · rw [if_neg hlt]; exact ih k m

theorem selectGo_mem (now : Nat) :
    ∀ (l : List (String × CacheEntry α)) (b : Option String) (m : JSNum) (k : String),
      selectGo now b m l = some k → b = some k ∨ k ∈ keysOf l := by
  intro l
  induction l with
  | nil =>
    intro b m k h
    simp only [selectGo] at h
    exact Or.inl h
  | cons p rest ih =>
    intro b m k h
    obtain ⟨k₁, e₁⟩ := p
    rw [keysOf_cons]
    simp only [selectGo] at h
    by_cases hlt : jsLt (scoreOf now e₁) m = true
    · rw [if_pos hlt] at h
      rcases ih (some k₁) (scoreOf now e₁) k h with h1 | h1
      · injection h1 with h1
        right
        simp [h1]
      · right
        exact List.mem_cons_of_mem _ h1
    · rw [if_neg hlt] at h
      rcases ih b m k h with h1 | h1
      · exact Or.inl h1
      · right
        exact List.mem_cons_of_mem _ h1

theorem selectGo_isSome_of_witness (now : Nat) :
    ∀ (l : List (String × CacheEntry α)) (b : Option String) (m : JSNum),
      (∃ p ∈ l, jsLt (scoreOf now p.2) m = true) → (selectGo now b m l).isSome := by
  intro l
  induction l with
  | nil => intro b m h; simp at h
  | cons p rest ih =>
    intro b m h
    obtain ⟨k₁, e₁⟩ := p
    simp only [selectGo]
    by_cases hlt : jsLt (scoreOf now e₁) m = true
    · rw [if_pos hlt]
      exact selectGo_some_isSome now rest k₁ _
    · rw [if_neg hlt]
      apply ih b m
      rcases h with ⟨q, hq, hlt'⟩
      rcases List.mem_cons.mp hq with rfl | hq'
      · exact absurd hlt' hlt
      · exact ⟨q, hq', hlt'⟩

theorem selectVictim_isSome {now : Nat} {l : List (String × CacheEntry α)}
    (hne : l ≠ []) (hage : ∀ p ∈ l, p.2.timestamp < now) :
    ∃ k, selectVictim now l = some k ∧ k ∈ keysOf l := by
  cases l with
  | nil => exact absurd rfl hne
  | cons p rest =>
    have hw : ∃ q ∈ p :: rest, jsLt (scoreOf now q.2) JSNum.inf = true := by
      refine ⟨p, List.mem_cons_self p rest, ?_⟩
      rw [scoreOf_eq_fin (hage p (List.mem_cons_self p rest))]
      rfl
    have hs := selectGo_isSome_of_witness now (p :: rest) none JSNum.inf hw
    obtain ⟨k, hk⟩ := Option.isSome_iff_exists.mp hs
    refine ⟨k, hk, ?_⟩
    rcases selectGo_mem now (p :: rest) none JSNum.inf k hk with h1 | h1
    · simp at h1
    · exact h1

theorem evictLRU_progress (now : Nat) (s : CacheState α) :
    CacheManager.evictLRU now s = s ∨
      (CacheManager.evictLRU now s).cache.length < s.cache.length := by
  cases hv : selectVictim now s.cache with
  | none => left; simp [CacheManager.evictLRU, hv]
  | some k =>
    by_cases hk : k = ""
    · left; simp [CacheManager.evictLRU, hv, hk]
    · cases hg : mapGet k s.cache with
      | none => left; simp [CacheManager.evictLRU, hv, hk, CacheManager.delete, hg]
      | some e =>
        right
        simp only [CacheManager.evictLRU, hv, if_neg hk, CacheManager.delete, hg]
        have := length_mapDelete hg
        show (mapDelete k s.cache).length < s.cache.length
        omega

theorem evictTerminates_not_of_fixed {now incoming : Nat} {s : CacheState α}
    (hfix : CacheManager.evictLRU now s = s) (hg : evictGuard incoming s = true) :
    ¬ evictTerminates now incoming s := by
  rintro ⟨n, hn⟩
  rw [Function.iterate_fixed hfix] at hn
  rw [hg] at hn
  cases hn

theorem evictTerminates_aux (now incoming : Nat) :
    ∀ (L : Nat) (s : CacheState α), s.cache.length ≤ L →
      (∀ p ∈ s.cache, p.2.timestamp < now) →
      (∀ p ∈ s.cache, p.1 ≠ "") →
      evictTerminates now incoming s := by
  intro L
  induction L with
  | zero =>
    intro s hL hage hkey
    refine ⟨0, ?_⟩
    have h0 : s.cache.length = 0 := Nat.le_zero.mp hL
    simp [evictGuard, h0]
  | succ L ih =>
    intro s hL hage hkey
    cases hg : evictGuard incoming s with
    | false => exact ⟨0, by simpa using hg⟩
    | true =>
      have hne : s.cache ≠ [] := by
        simp only [evictGuard, Bool.and_eq_true, decide_eq_true_eq] at hg
        exact List.length_pos.mp hg.2
      obtain ⟨k, hvk, hmem⟩ := selectVictim_isSome hne hage
      have hk : k ≠ "" := by
        obtain ⟨p, hp, hpk⟩ := List.mem_map.mp hmem
        rw [← hpk]
        exact hkey p hp
      obtain ⟨e, hge⟩ := mapGet_isSome_of_mem hmem
      have hstep : CacheManager.evictLRU now s =
          { s with cache := mapDelete k s.cache,
                   sizeUsed := s.sizeUsed - ((e.size : Nat) : Int) } := by
        simp [CacheManager.evictLRU, hvk, hk, CacheManager.delete, hge]
      have hsub : ∀ p ∈ mapDelete k s.cache, p ∈ s.cache :=
        fun p hp => (mapDelete_sublist k s.cache).subset hp
      have hageN : ∀ p ∈ (CacheManager.evictLRU now s).cache, p.2.timestamp < now := by
        rw [hstep]
        exact fun p hp => hage p (hsub p hp)
      have hkeyN : ∀ p ∈ (CacheManager.evictLRU now s).cache, p.1 ≠ "" := by
        rw [hstep]
        exact fun p hp => hkey p (hsub p hp)
      have hlen : (CacheManager.evictLRU now s).cache.length ≤ L := by
        rw [hstep]
        have := length_mapDelete hge
        show (mapDelete k s.cache).length ≤ L
        omega
      obtain ⟨n, hn⟩ := ih (CacheManager.evictLRU now s) hlen hageN hkeyN
      refine ⟨n + 1, ?_⟩
      rw [Function.iterate_succ_apply]
      exact hn

theorem evictLoopFuel_isSome_aux (now incoming : Nat) :
    ∀ (L : Nat) (s : CacheState α), s.cache.length ≤ L →
      (∀ p ∈ s.cache, p.2.timestamp < now) →
      (∀ p ∈ s.cache, p.1 ≠ "") →
      ∀ fuel, s.cache.length < fuel →
        (evictLoopFuel now incoming fuel s).isSome := by
  intro L
  induction L with
  | zero =>
    intro s hL hage hkey fuel hfuel
    have h0 : s.cache.length = 0 := Nat.le_zero.mp hL
    cases fuel with
    | zero => omega
    | succ f =>
      have hgf : evictGuard incoming s = false := by
        simp [evictGuard, h0]
      simp [evictLoopFuel, hgf]
  | succ L ih =>
    intro s hL hage hkey fuel hfuel
    cases fuel with
    | zero => omega
    | succ f =>
      cases hg : evictGuard incoming s with
      | false => simp [evictLoopFuel, hg]
      | true =>
        have hne : s.cache ≠ [] := by
          simp only [evictGuard, Bool.and_eq_true, decide_eq_true_eq] at hg
          exact List.length_pos.mp hg.2
        obtain ⟨k, hvk, hmem⟩ := selectVictim_isSome hne hage
        have hk : k ≠ "" := by
          obtain ⟨p, hp, hpk⟩ := List.mem_map.mp hmem
          rw [← hpk]
          exact hkey p hp
        obtain ⟨e, hge⟩ := mapGet_isSome_of_mem hmem
        have hstep : CacheManager.evictLRU now s =
            { s with cache := mapDelete k s.cache,
                     sizeUsed := s.sizeUsed - ((e.size : Nat) : Int) } := by
          simp [CacheManager.evictLRU, hvk, hk, CacheManager.delete, hge]
        have hsub : ∀ p ∈ mapDelete k s.cache, p ∈ s.cache :=
          fun p hp => (mapDelete_sublist k s.cache).subset hp
        have hlend := length_mapDelete hge
        have hres : (evictLoopFuel now incoming f (CacheManager.evictLRU now s)).isSome := by
          apply ih (CacheManager.evictLRU now s)
          · rw [hstep]
            show (mapDelete k s.cache).length ≤ L
            omega
          · rw [hstep]; exact fun p hp => hage p (hsub p hp)
          · rw [hstep]; exact fun p hp => hkey p (hsub p hp)
          · rw [hstep]
            show (mapDelete k s.cache).length < f
            omega
        simpa [evictLoopFuel, hg] using hres

theorem evictLoopFuel_none_not_terminates (now incoming : Nat) :
    ∀ (fuel : Nat) (s : CacheState α), s.cache.length < fuel →
      evictLoopFuel now incoming fuel s = none →
      ¬ evictTerminates now incoming s := by
  intro fuel
  induction fuel with
  | zero => intro s h; exact absurd h (Nat.not_lt_zero _)
  | succ fuel ih =>
    intro s hlen hnone
    cases hg : evictGuard incoming s with
    | false => simp [evictLoopFuel, hg] at hnone
    | true =>
      simp only [evictLoopFuel, hg, if_true] at hnone
      rcases evictLRU_progress now s with hfix | hprog
      · exact evictTerminates_not_of_fixed hfix hg
      · have hlt : (CacheManager.evictLRU now s).cache.length < fuel := by omega
        have hnt := ih (CacheManager.evictLRU now s) hlt hnone
        rintro ⟨n, hn⟩
        cases n with
        | zero =>
          rw [Function.iterate_zero_apply] at hn
          rw [hg] at hn
          cases hn
        | succ n =>
          rw [Function.iterate_succ_apply] at hn
          exact hnt ⟨n, hn⟩

theorem selectGo_fin_spec (now : Nat) :
    ∀ (l : List (String × CacheEntry α)) (k₀ k : String) (m : ℚ),
      (∀ p ∈ l, p.2.timestamp < now) →
      selectGo now (some k₀) (JSNum.fin m) l = some k →
      (k = k₀ ∧ ∀ p ∈ l, m ≤ rscore now p.2) ∨
      (∃ l₁ e l₂, l = l₁ ++ (k, e) :: l₂ ∧ rscore now e < m ∧
        (∀ p ∈ l₁, rscore now e < rscore now p.2) ∧
        (∀ p ∈ l₂, rscore now e ≤ rscore now p.2)) := by
  intro l
  induction l with
  | nil =>
    intro k₀ k m hage h
    simp only [selectGo] at h
    injection h with h
    exact Or.inl ⟨h.symm, by simp⟩
  | cons p rest ih =>
    intro k₀ k m hage hsel
    obtain ⟨k₁, e₁⟩ := p
    have hage₁ : e₁.timestamp < now := hage (k₁, e₁) (List.mem_cons_self _ _)
    have hrest : ∀ p ∈ rest, p.2.timestamp < now :=
      fun p hp => hage p (List.mem_cons_of_mem _ hp)
    simp only [selectGo] at hsel
    by_cases hlt : rscore now e₁ < m
    · have hjs : jsLt (scoreOf now e₁) (JSNum.fin m) = true := by
        rw [scoreOf_eq_fin hage₁]
        simp [jsLt, hlt]
      rw [if_pos hjs, scoreOf_eq_fin hage₁] at hsel
      rcases ih k₁ k (rscore now e₁) hrest hsel with ⟨hk, hall⟩ | ⟨l₁, e, l₂, heq, hem, hbef, haft⟩
      · right
        refine ⟨[], e₁, rest, ?_, hlt, by simp, hall⟩
        rw [hk]
        rfl
      · right
        refine ⟨(k₁, e₁) :: l₁, e, l₂, by rw [heq]; rfl, hem.trans hlt, ?_, haft⟩
        intro q hq
        rcases List.mem_cons.mp hq with rfl | hq'
        · exact hem
        · exact hbef q hq'
    · have hjs : ¬ jsLt (scoreOf now e₁) (JSNum.fin m) = true := by
        rw [scoreOf_eq_fin hage₁]
        simp [jsLt, hlt]
      rw [if_neg hjs] at hsel
      rcases ih k₀ k m hrest hsel with ⟨hk, hall⟩ | ⟨l₁, e, l₂, heq, hem, hbef, haft⟩
      · left
        refine ⟨hk, ?_⟩
        intro q hq
        rcases List.mem_cons.mp hq with rfl | hq'
        · exact le_of_not_lt hlt
        · exact hall q hq'
      · right
        refine ⟨(k₁, e₁) :: l₁, e, l₂, by rw [heq]; rfl, hem, ?_, haft⟩
        intro q hq
        rcases List.mem_cons.mp hq with rfl | hq'
        · exact lt_of_lt_of_le hem (le_of_not_lt hlt)
        · exact hbef q hq'

theorem selectVictim_spec {now : Nat} {l : List (String × CacheEntry α)} {k : String}
    (hage : ∀ p ∈ l, p.2.timestamp < now)
    (hsel : selectVictim now l = some k) :
    ∃ l₁ e l₂, l = l₁ ++ (k, e) :: l₂ ∧
      (∀ p ∈ l₁, rscore now e < rscore now p.2) ∧
      (∀ p ∈ l₂, rscore now e ≤ rscore now p.2) := by
  cases l with
  | nil => simp [selectVictim, selectGo] at hsel
  | cons p rest =>
    obtain ⟨k₁, e₁⟩ := p
    have hage₁ : e₁.timestamp < now := hage (k₁, e₁) (List.mem_cons_self _ _)
    have hrest : ∀ q ∈ rest, q.2.timestamp < now :=
      fun q hq => hage q (List.mem_cons_of_mem _ hq)
    have hjs : jsLt (scoreOf now e₁) JSNum.inf = true := by
      rw [scoreOf_eq_fin hage₁]
      rfl
    rw [show selectVictim now ((k₁, e₁) :: rest) =
      (if jsLt (scoreOf now e₁) JSNum.inf = true then
        selectGo now (some k₁) (scoreOf now e₁) rest
      else selectGo now none JSNum.inf rest) from rfl] at hsel
    rw [if_pos hjs, scoreOf_eq_fin hage₁] at hsel
    rcases selectGo_fin_spec now rest k₁ k (rscore now e₁) hrest hsel with
      ⟨hk, hall⟩ | ⟨l₁, e, l₂, heq, hem, hbef, haft⟩
    · refine ⟨[], e₁, rest, ?_, by simp, hall⟩
      rw [hk]
      rfl
    · refine ⟨(k₁, e₁) :: l₁, e, l₂, by rw [heq]; rfl, ?_, haft⟩
      intro q hq
      rcases List.mem_cons.mp hq with rfl | hq'
      · exact hem
      · exact hbef q hq'

theorem evictLoopFuel_defaultTTL (now incoming : Nat) :
    ∀ (fuel : Nat) (s s₁ : CacheState α),
      evictLoopFuel now incoming fuel s = some s₁ → s₁.defaultTTL = s.defaultTTL := by
  intro fuel
  induction fuel with
  | zero =>
    intro s s₁ h
    cases hg : evictGuard incoming s with
    | true => simp [evictLoopFuel, hg] at h
    | false =>
      simp [evictLoopFuel, hg] at h
      subst h
      rfl
  | succ fuel ih =>
    intro s s₁ h
    cases hg : evictGuard incoming s with
    | false =>
      simp [evictLoopFuel, hg] at h
      subst h
      rfl
    | true =>
      simp only [evictLoopFuel, hg, if_true] at h
      exact (ih (CacheManager.evictLRU now s) s₁ h).trans (evictLRU_defaultTTL now s)

theorem scanTTL_eq_find (key : String) :
    ∀ l : List ((String → Bool) × Nat),
      scanTTL key l = (l.find? (fun r => r.1 key)).map Prod.snd := by
  intro l
  induction l with
  | nil => rfl
  | cons p rest ih =>
    obtain ⟨pat, ttl⟩ := p
    by_cases hp : pat key
    · simp [scanTTL, List.find?, hp]
    · simp [scanTTL, List.find?, hp, ih]

theorem scanTTL_eq_none (key : String) :
    ∀ l : List ((String → Bool) × Nat), (∀ r ∈ l, r.1 key = false) →
      scanTTL key l = none := by
  intro l
  induction l with
  | nil => intro _; rfl
  | cons p rest ih =>
    intro h
    obtain ⟨pat, ttl⟩ := p
    have hp : pat key = false := h (pat, ttl) (List.mem_cons_self _ _)
    simp only [scanTTL, hp]
    rw [if_neg (by simp)]
    exact ih (fun r hr => h r (List.mem_cons_of_mem _ hr))

/-- C1: starting from a fresh cache, after any sequence of the public
operations set, get, delete, clear, the sizeUsed counter equals the sum
of the size fields of the entries resident in the store, and in
particular is never negative. -/
theorem c1_sizeUsed_invariant {est : α → Nat} {s : CacheState α}
    (h : Reachable est s) :
    s.sizeUsed = entrySum s.cache ∧ 0 ≤ s.sizeUsed := by
  have hi := reachable_cacheInv h
  refine ⟨hi.1.2, ?_⟩
  rw [hi.1.2]
  exact entrySum_nonneg s.cache

/-- C1 witness: the invariant checked on a concrete reachable state,
one set on a fresh cache. -/
theorem c1_witness :
    Reachable (fun _ : Nat => 60) c1State ∧
    (c1State.sizeUsed = entrySum c1State.cache ∧ 0 ≤ c1State.sizeUsed) := by
  have hr : Reachable (fun _ : Nat => 60) c1State :=
    Reachable.opSet 100 ("a") 0 none (Reachable.init 100 300000) rfl
  exact ⟨hr, c1_sizeUsed_invariant hr⟩

/-- C2: in every reachable state, sizeUsed is within the maxSize byte
budget, except when the store consists of exactly one entry whose
estimated size alone exceeds maxSize (the tolerated overshoot a set of
an oversized value leaves after the eviction loop empties the store). -/
theorem c2_overshoot_bound {est : α → Nat} {s : CacheState α}
    (h : Reachable est s) :
    s.sizeUsed ≤ (s.maxSize : Int) ∨
    ∃ k e, s.cache = [(k, e)] ∧ (s.maxSize : Int) < ((e.size : Nat) : Int) :=
  (reachable_cacheInv h).2

/-- C2 witness: the bound checked on a concrete reachable overshoot
state, a 200-byte value admitted into an empty 100-byte cache. -/
theorem c2_witness :
    Reachable (fun _ : Nat => 200) c2State ∧
    (c2State.sizeUsed ≤ (c2State.maxSize : Int) ∨
      ∃ k e, c2State.cache = [(k, e)] ∧
        (c2State.maxSize : Int) < ((e.size : Nat) : Int)) := by
  have hr : Reachable (fun _ : Nat => 200) c2State :=
    Reachable.opSet 50 ("a") 0 none (Reachable.init 100 300000) rfl
  exact ⟨hr, c2_overshoot_bound hr⟩

/-- C3 counterexample: a reachable non-empty store on which the
eviction loop of set runs forever.  The single resident entry has zero
hits and age zero, so its score is NaN, the scan never selects a
victim, evictLRU is the identity, and the while condition stays true:
the claimed termination for every reachable state is false, and this
set never completes. -/
theorem c3_counterexample :
    Reachable (fun _ : Nat => 60) c3State ∧
    c3State.cache ≠ [] ∧
    evictGuard 60 c3State = true ∧
    CacheManager.evictLRU 100 c3State = c3State ∧
    ¬ evictTerminates 100 60 c3State ∧
    CacheManager.set (fun _ : Nat => 60) 100 ("b") (0 : Nat) none c3State = none := by
  refine ⟨Reachable.opSet 100 ("a") 0 none (Reachable.init 100 300000) rfl,
    by simp [c3State], rfl, rfl, ?_, rfl⟩
  exact evictTerminates_not_of_fixed rfl rfl

/-- C3 (amended): the eviction loop of set terminates, and set
completes, from every state in which each resident entry was inserted
strictly before the current time (so no score is the indeterminate 0/0
or infinity) and no resident key is the empty string (which the JS
truthiness test on the selected victim would refuse to delete); on an
empty store the loop stops without action. -/
theorem c3_amended_termination {est : α → Nat} (now : Nat) (k : String) (v : α)
    (t : Option Nat) {s : CacheState α}
    (hage : ∀ p ∈ s.cache, p.2.timestamp < now)
    (hkey : ∀ p ∈ s.cache, p.1 ≠ "") :
    evictTerminates now (est v) s ∧ (CacheManager.set est now k v t s).isSome := by
  constructor
  · exact evictTerminates_aux now (est v) s.cache.length s le_rfl hage hkey
  · have hs := evictLoopFuel_isSome_aux now (est v) s.cache.length s le_rfl hage hkey
      (s.cache.length + 1) (Nat.lt_succ_self _)
    obtain ⟨s₁, hs₁⟩ := Option.isSome_iff_exists.mp hs
    simp [CacheManager.set, hs₁]

/-- C3 witness for the amended claim: the same store as the
counterexample, but one tick later, when the entry has positive age:
the loop now terminates and the set completes. -/
theorem c3_amended_witness :
    (∀ p ∈ c3State.cache, p.2.timestamp < 200) ∧
    (∀ p ∈ c3State.cache, p.1 ≠ "") ∧
    (evictTerminates 200 60 c3State ∧
      (CacheManager.set (fun _ : Nat => 60) 200 ("b") (0 : Nat) none c3State).isSome) :=
  ⟨by decide, by decide,
    @c3_amended_termination Nat (fun _ : Nat => 60) 200 ("b") 0 none c3State
      (by decide) (by decide)⟩

/-- C4: when every resident entry has positive age, a victim selected
by the eviction scan splits the store, in insertion order, into
l₁ ++ victim :: l₂ with every entry of l₁ scoring strictly above the
victim and every entry of l₂ scoring no less than the victim under the
score hits * 1000 / (now - timestamp): the victim attains the minimum
score and is the earliest-inserted entry doing so, and the removal
evictLRU performs (for a truthy key) is exactly the deletion of that
victim. -/
theorem c4_eviction_minimal {now : Nat} {s : CacheState α} {k : String}
    (hage : ∀ p ∈ s.cache, p.2.timestamp < now)
    (hsel : selectVictim now s.cache = some k) :
    (∃ l₁ e l₂, s.cache = l₁ ++ (k, e) :: l₂ ∧
      (∀ p ∈ s.cache, rscore now e ≤ rscore now p.2) ∧
      (∀ p ∈ l₁, rscore now e < rscore now p.2) ∧
      (∀ p ∈ l₂, rscore now e ≤ rscore now p.2)) ∧
    (k ≠ "" → CacheManager.evictLRU now s = (CacheManager.delete k s).2) := by
  constructor
  · obtain ⟨l₁, e, l₂, heq, hbef, haft⟩ := selectVictim_spec hage hsel
    refine ⟨l₁, e, l₂, heq, ?_, hbef, haft⟩
    intro p hp
    rw [heq] at hp
    rcases List.mem_append.mp hp with hp | hp
    · exact le_of_lt (hbef p hp)
    · rcases List.mem_cons.mp hp with rfl | hp'
      · exact le_refl _
      · exact haft p hp'
  · intro hk
    simp [CacheManager.evictLRU, hsel, hk]

/-- C4 witness: the spec's scenario with maxSize 100 and entries
a (size 60, hits 10, age 1 s) and b (size 60, hits 0, age 100 s): the
scan selects b, the first eviction removes b while a survives, and a
set of a third 60-byte entry c evicts b before a. -/
theorem c4_witness :
    (∀ p ∈ c4State.cache, p.2.timestamp < 200000) ∧
    selectVictim 200000 c4State.cache = some ("b") ∧
    (∃ l₁ e l₂, c4State.cache = l₁ ++ (("b" : String), e) :: l₂ ∧
      (∀ p ∈ c4State.cache, rscore 200000 e ≤ rscore 200000 p.2) ∧
      (∀ p ∈ l₁, rscore 200000 e < rscore 200000 p.2) ∧
      (∀ p ∈ l₂, rscore 200000 e ≤ rscore 200000 p.2)) ∧
    CacheManager.evictLRU 200000 c4State =
      ⟨[(("a" : String), ⟨0, 199000, 60, 10⟩)], 60, 100, 300000⟩ ∧
    CacheManager.set (fun _ : Nat => 60) 200000 ("c") (2 : Nat) none c4State =
      some ⟨[(("c" : String), ⟨2, 200000, 60, 0⟩)], 60, 100, 300000⟩ := by
  have hage : ∀ p ∈ c4State.cache, p.2.timestamp < 200000 := by decide
  have hsel : selectVictim 200000 c4State.cache = some ("b") := by
    norm_num [selectVictim, selectGo, scoreOf, jsLt, c4State]
  have hev : CacheManager.evictLRU 200000 c4State =
      (⟨[(("a" : String), ⟨0, 199000, 60, 10⟩)], 60, 100, 300000⟩ : CacheState Nat) := by
    rw [(c4_eviction_minimal hage hsel).2 (by decide)]
    rfl
  have hev2 : CacheManager.evictLRU 200000
      (⟨[(("a" : String), ⟨0, 199000, 60, 10⟩)], 60, 100, 300000⟩ : CacheState Nat) =
      (⟨[], 0, 100, 300000⟩ : CacheState Nat) := rfl
  refine ⟨hage, hsel, (c4_eviction_minimal hage hsel).1, hev, ?_⟩
  have hloop : evictLoopFuel 200000 60 (c4State.cache.length + 1) c4State =
      some (⟨[], 0, 100, 300000⟩ : CacheState Nat) := by
    show evictLoopFuel 200000 60 (2 + 1) c4State = _
    rw [show evictLoopFuel 200000 60 (2 + 1) c4State =
      evictLoopFuel 200000 60 (1 + 1) (CacheManager.evictLRU 200000 c4State) from rfl]
    rw [hev]
    rw [show evictLoopFuel 200000 60 (1 + 1)
        (⟨[(("a" : String), ⟨0, 199000, 60, 10⟩)], 60, 100, 300000⟩ : CacheState Nat) =
      evictLoopFuel 200000 60 1 (CacheManager.evictLRU 200000
        (⟨[(("a" : String), ⟨0, 199000, 60, 10⟩)], 60, 100, 300000⟩ : CacheState Nat))
      from rfl]
    rw [hev2]
    rfl
  simp only [CacheManager.set]
  rw [hloop]
  rfl

/-- C5: TTL resolution scans the rule table in its declared order and
returns the TTL of the first matching pattern (the scan equals the
first-match search over the table), the key subreddit:foo:hot resolves
to 300000 ms and post:123 to 600000 ms whatever the default, and a key
matching no pattern resolves to the configured default TTL. -/
theorem c5_ttl_resolution :
    (∀ (d : Nat) (key : String), getTTLForKey d key =
      ((ttlByPattern.find? (fun r => r.1 key)).map Prod.snd).getD d) ∧
    (∀ d : Nat, getTTLForKey d ("subreddit:foo:hot") = 300000) ∧
    (∀ d : Nat, getTTLForKey d ("post:123") = 600000) ∧
    (∀ (d : Nat) (key : String), (∀ r ∈ ttlByPattern, r.1 key = false) →
      getTTLForKey d key = d) := by
  refine ⟨?_, fun d => rfl, fun d => rfl, ?_⟩
  · intro d key
    unfold getTTLForKey
    rw [scanTTL_eq_find]
  · intro d key h
    unfold getTTLForKey
    rw [scanTTL_eq_none key ttlByPattern h]
    rfl

/-- C5 witness: a key matching no pattern resolves to the supplied
default. -/
theorem c5_witness : getTTLForKey 12345 ("zzz") = 12345 :=
  c5_ttl_resolution.2.2.2 12345 ("zzz") (by decide)

/-- C6: a set that completes, followed by a get at any time within the
TTL resolved for the key, returns exactly the value just stored. -/
theorem c6_set_get_roundtrip {est : α → Nat} {now now₂ : Nat} {k : String} {v : α}
    {t : Option Nat} {s s' : CacheState α}
    (hset : CacheManager.set est now k v t s = some s')
    (httl : (now₂ : Int) - (now : Int) ≤ (getTTLForKey s.defaultTTL k : Int)) :
    (CacheManager.get now₂ k s').1 = some v := by
  cases hev : evictLoopFuel now (est v) (s.cache.length + 1) s with
  | none => simp [CacheManager.set, hev] at hset
  | some s₁ =>
    have hdt₁ : s₁.defaultTTL = s.defaultTTL :=
      evictLoopFuel_defaultTTL now (est v) (s.cache.length + 1) s s₁ hev
    simp only [CacheManager.set, hev, Option.some.injEq] at hset
    subst hset
    have hdt₂ : (if (mapGet k s₁.cache).isSome then (CacheManager.delete k s₁).2
        else s₁).defaultTTL = s₁.defaultTTL := by
      by_cases hks : (mapGet k s₁.cache).isSome
      · simp [hks, delete_defaultTTL]
      · simp [hks]
    simp only [CacheManager.get, mapGet_mapSet_self]
    rw [if_neg ?hc]
    case hc =>
      rw [hdt₂, hdt₁]
      omega

/-- C6 witness: the round trip on a fresh cache, value 7 stored under
key k at time 100 and read back at time 200 within the default TTL of
500 ms. -/
theorem c6_witness :
    CacheManager.set (fun _ : Nat => 10) 100 ("k") 7 none
      (⟨[], 0, 1000, 500⟩ : CacheState Nat) = some c6State ∧
    ((200 : Int) - (100 : Int) ≤
      (getTTLForKey (⟨[], 0, 1000, 500⟩ : CacheState Nat).defaultTTL ("k") : Int)) ∧
    (CacheManager.get 200 ("k") c6State).1 = some 7 := by
  have hset : CacheManager.set (fun _ : Nat => 10) 100 ("k") 7 none
      (⟨[], 0, 1000, 500⟩ : CacheState Nat) = some c6State := rfl
  exact ⟨hset, by decide, c6_set_get_roundtrip hset (by decide)⟩

/-- C7: a get on a resident entry whose resolved TTL has elapsed
returns absent and purges the entry, so the key is gone and a
subsequent delete of it returns false leaving the state unchanged; and
a delete of a key absent from any state returns false and changes
nothing. -/
theorem c7_expiry_and_absent_delete {now : Nat} {k : String} {s : CacheState α}
    {e : CacheEntry α}
    (hnd : (keysOf s.cache).Nodup)
    (hge : mapGet k s.cache = some e)
    (hexp : (getTTLForKey s.defaultTTL k : Int) < (now : Int) - (e.timestamp : Int)) :
    (CacheManager.get now k s).1 = none ∧
    mapGet k ((CacheManager.get now k s).2).cache = none ∧
    CacheManager.delete k ((CacheManager.get now k s).2) =
      (false, (CacheManager.get now k s).2) ∧
    (∀ (s₀ : CacheState α) (k₀ : String), mapGet k₀ s₀.cache = none →
      CacheManager.delete k₀ s₀ = (false, s₀)) := by
  have habs : ∀ (s₀ : CacheState α) (k₀ : String), mapGet k₀ s₀.cache = none →
      CacheManager.delete k₀ s₀ = (false, s₀) := by
    intro s₀ k₀ h₀
    simp [CacheManager.delete, h₀]
  have hres : (CacheManager.get now k s).2 = (CacheManager.delete k s).2 := by
    simp [CacheManager.get, hge, if_pos hexp]
  have hgone : mapGet k ((CacheManager.get now k s).2).cache = none := by
    rw [hres]
    simp only [CacheManager.delete, hge]
    exact (mapGet_eq_none_iff k _).mpr (not_mem_keysOf_mapDelete hnd)
  refine ⟨?_, hgone, habs _ k hgone, habs⟩
  simp [CacheManager.get, hge, if_pos hexp]

/-- C7 witness: a concrete store whose only entry, created at time 0
with an effective TTL of 300 ms, is read at time 1000. -/
theorem c7_witness :
    ((keysOf c7State.cache).Nodup ∧
      mapGet ("k") c7State.cache = some ⟨0, 0, 10, 0⟩ ∧
      (getTTLForKey c7State.defaultTTL ("k") : Int) <
        (1000 : Int) - (((⟨0, 0, 10, 0⟩ : CacheEntry Nat).timestamp : Nat) : Int)) ∧
    ((CacheManager.get 1000 ("k") c7State).1 = none ∧
      mapGet ("k") ((CacheManager.get 1000 ("k") c7State).2).cache = none ∧
      CacheManager.delete ("k") ((CacheManager.get 1000 ("k") c7State).2) =
        (false, (CacheManager.get 1000 ("k") c7State).2) ∧
      (∀ (s₀ : CacheState Nat) (k₀ : String), mapGet k₀ s₀.cache = none →
        CacheManager.delete k₀ s₀ = (false, s₀))) :=
  ⟨⟨by decide, by decide, by decide⟩,
    @c7_expiry_and_absent_delete Nat 1000 ("k") c7State ⟨0, 0, 10, 0⟩
      (by decide) (by decide) (by decide)⟩

/-- C8: the customTTL argument of set is ignored: the result of set is
literally the same state for every supplied duration and for none, so
no observable behavior depends on it; expiry is re-derived from the
key by the TTL resolver inside get (and the entry record stores no
TTL). -/
theorem c8_customTTL_ignored (est : α → Nat) (now : Nat) (k : String) (v : α)
    (t₁ t₂ : Option Nat) (s : CacheState α) :
    CacheManager.set est now k v t₁ s = CacheManager.set est now k v t₂ s ∧
    CacheManager.set est now k v t₁ s = CacheManager.set est now k v none s :=
  ⟨rfl, rfl⟩

/-- C9: createKey drops undefined components wherever they occur in
the argument list, joins the kept components with a colon in the order
given, and lowercases; the spec's example holds, and swapping
components changes the key (order sensitivity). -/
theorem c9_createKey :
    (∀ xs ys : List KeyPart, CacheManager.createKey (xs ++ KeyPart.undef :: ys) =
      CacheManager.createKey (xs ++ ys)) ∧
    CacheManager.createKey [KeyPart.str ("user"), KeyPart.str ("abc"),
      KeyPart.undef, KeyPart.str ("Profile")] = ("user:abc:profile") ∧
    CacheManager.createKey [KeyPart.str ("a"), KeyPart.str ("b")] ≠
      CacheManager.createKey [KeyPart.str ("b"), KeyPart.str ("a")] := by
  refine ⟨?_, by decide, by decide⟩
  intro xs ys
  unfold CacheManager.createKey
  rw [List.filter_append, List.filter_append,
    show List.filter keepPart (KeyPart.undef :: ys) = List.filter keepPart ys by
      simp [List.filter, keepPart]]

/-- C10: getStats computes its aggregates from the live store and
returns the state exactly unchanged, leaving every entry and the
sizeUsed counter intact even when entries are expired; get, by
contrast, purges an expired entry and does change the state. -/
theorem c10_getStats_readonly :
    (∀ (β : Type) (s : CacheState β), (CacheManager.getStats s).2 = s) ∧
    (CacheManager.getStats c10State).2 = c10State ∧
    (CacheManager.get 1000 ("k") c10State).2 ≠ c10State := by
  refine ⟨fun β s => rfl, rfl, ?_⟩
  have hres : (CacheManager.get 1000 ("k") c10State).2 =
      (⟨[], 0, 100, 300⟩ : CacheState Nat) := rfl
  rw [hres]
  intro h
  have hc := congrArg CacheState.cache h
  simp [c10State] at hc
